import Mathlib

/-!
Shallow embedding of the price-history core of the buy-better tool:
the price parser and history reconciler (src/lib/product-context.tsx),
the mock generator and projection engine (src/components/PriceChart.tsx),
and the day-count history generator (src/lib/serp-api.ts).

JavaScript numbers are modelled as exact rationals; `Math.random()` is
modelled as an externally supplied stream `rng : ℕ → ℚ` of draws in
`[0, 1)`; `Math.round` is `fun q => ⌊q + 1/2⌋` (round half toward +∞,
as in JS); dates are modelled as integer day numbers, opaque to all of
the arithmetic below.
-/

/-- JavaScript `Math.round`: round half up (toward +∞). -/
def jround (q : ℚ) : ℤ := ⌊q + 1 / 2⌋

/-- One point of a price series, as handled by `startTracking`:
a date (day number) and a price. -/
@[ext]
structure PricePoint where
  date : ℤ
  price : ℚ
deriving DecidableEq

/-- Default `PricePoint`, used only as the out-of-range default of `List.getD`. -/
def pp0 : PricePoint := ⟨0, 0⟩

/-- The `mapped` pass of `startTracking`:
`history.map(h => ({date: h.date, price: Math.max(0, Math.round(h.price))}))`. -/
def mappedSeries (raw : List PricePoint) : List PricePoint :=
  raw.map fun h => ⟨h.date, max 0 ((jround h.price : ℤ) : ℚ)⟩

/-- The offset pass of `startTracking`:
`adjusted.map(p => ({date: p.date, price: Math.max(0, Math.round(p.price + offset))}))`. -/
def adjSeries (m : List PricePoint) (offset : ℚ) : List PricePoint :=
  m.map fun p => ⟨p.date, max 0 ((jround (p.price + offset) : ℤ) : ℚ)⟩

/-- The history-reconciliation block of `startTracking`
(src/lib/product-context.tsx lines 66-76): clamp-and-round every raw point,
then, when a current price is known and the series is non-empty, shift every
point by `offset = parsed - lastPrice` (clamping and rounding again) and
force the final point to exactly the parsed current price. -/
def reconcile (raw : List PricePoint) (parsed : Option ℚ) : List PricePoint :=
  let m := mappedSeries raw
  match parsed with
  | none => m
  | some cp =>
    if m.length = 0 then m
    else
      let adj := adjSeries m (cp - (m.getD (m.length - 1) pp0).price)
      adj.set (adj.length - 1) ⟨(adj.getD (adj.length - 1) pp0).date, cp⟩

/-- Value of a list of decimal digit characters, most significant first. -/
def digitsVal (ds : List Char) : ℕ :=
  ds.foldl (fun acc c => 10 * acc + (c.toNat - 48)) 0

/-- Fractional part read by `parseFloat` after the integer digits:
a leading dot followed by digits contributes `digits / 10 ^ count`,
anything else contributes nothing. -/
def fracPart (cs : List Char) : ℚ :=
  match cs with
  | '.' :: rest =>
      (digitsVal (rest.takeWhile Char.isDigit) : ℚ) / 10 ^ (rest.takeWhile Char.isDigit).length
  | _ => 0

/-- JavaScript `parseFloat` on a string of digits and dots: parse the longest
prefix of the form `digits [. digits]` or `. digits`; no such prefix is NaN
(`none`). -/
def parseFloatQ : List Char → Option ℚ
  | [] => none
  | c :: rest =>
      if c.isDigit then
        some ((digitsVal ((c :: rest).takeWhile Char.isDigit) : ℚ) +
          fracPart ((c :: rest).dropWhile Char.isDigit))
      else if c = '.' then
        if (rest.takeWhile Char.isDigit).isEmpty then none
        else some ((digitsVal (rest.takeWhile Char.isDigit) : ℚ) /
          10 ^ (rest.takeWhile Char.isDigit).length)
      else none

/-- The `replace(/[^0-9.]/g, '')` strip of `parsePriceToNumber`. -/
def stripToNum (s : String) : List Char :=
  s.data.filter fun c => c.isDigit || c = '.'

/-- The price parser `parsePriceToNumber` of src/lib/product-context.tsx:
falsy input (absent or empty) is `none`; otherwise strip everything but
digits and dots, `parseFloat`, and map NaN to `none`. -/
def parsePriceToNumber (priceStr : Option String) : Option ℚ :=
  match priceStr with
  | none => none
  | some s => if s = "" then none else parseFloatQ (stripToNum s)

/-- A digit/dot residue on which `parseFloat` succeeds: it begins with a
digit, or with a dot immediately followed by a digit. -/
def goodStart : List Char → Bool
  | [] => false
  | [c] => c.isDigit
  | c :: c2 :: _ => c.isDigit || (c = '.' && c2.isDigit)

/-- JavaScript `parsed || 0` on a `number | null` value. -/
def jsOrZero (v : Option ℚ) : ℚ :=
  match v with
  | none => 0
  | some x => if x = 0 then 0 else x

/-- The catch-branch fallback of `startTracking`: six points, one week
apart, ending today, all at the parsed current price (or 0). -/
def fallbackSeries (parsed : Option ℚ) (today : ℤ) : List PricePoint :=
  (List.range 6).map fun (j : ℕ) => ⟨today - (5 - (j : ℤ)) * 7, jsOrZero parsed⟩

/-- The `startTracking` history pipeline: the fetched series (or the fetch
failure) is consumed entirely; a successful fetch is reconciled against the
parsed current price, a failed fetch is replaced by the synthetic fallback
series. No error leaves this function. -/
def startTrackingHistory (priceStr : Option String)
    (fetched : Except Unit (List PricePoint)) (today : ℤ) : List PricePoint :=
  let parsed := parsePriceToNumber priceStr
  match fetched with
  | Except.ok history => reconcile history parsed
  | Except.error _ => fallbackSeries parsed today

/-- The 12-month label table of PriceChart. -/
def months : List String :=
  ["Jan", "Feb", "Mar", "Apr", "May", "Jun", "Jul", "Aug", "Sep", "Oct", "Nov", "Dec"]

/-- The 8 historical month labels of `generatePriceData`. -/
def histMonths : List String :=
  ["Jan", "Feb", "Mar", "Apr", "May", "Jun", "Jul", "Aug"]

/-- The 4 prediction month labels of `generatePriceData`. -/
def predMonths : List String := ["Sep", "Oct", "Nov", "Dec"]

/-- A chart point of PriceChart: a label, an optional actual price and an
optional predicted price. -/
structure PriceDataPoint where
  date : String
  price : Option ℚ
  prediction : Option ℚ
deriving DecidableEq

/-- Default `PriceDataPoint`, used only as the out-of-range default of `List.getD`. -/
def cp0 : PriceDataPoint := ⟨"", none, none⟩

/-- ASCII lower-casing of a product name, as `toLowerCase()` does on the
names that occur here. -/
def lowerData (s : String) : List Char :=
  s.data.map Char.toLower

/-- Whether the first list is an initial segment of the second. -/
def beginsWith : List Char → List Char → Bool
  | [], _ => true
  | _ :: _, [] => false
  | a :: as, b :: bs => a = b && beginsWith as bs

/-- Whether the needle occurs contiguously somewhere in the haystack
(JavaScript `String.includes`). -/
def hasSub (needle : List Char) : List Char → Bool
  | [] => needle.isEmpty
  | c :: rest => beginsWith needle (c :: rest) || hasSub needle rest

/-- `productName.toLowerCase().includes(pat)` for the lowercase keywords of
the category table. -/
def nameHas (name : String) (pat : String) : Bool :=
  hasSub pat.data (lowerData name)

/-- The ordered category keyword table of `generatePriceData`
(src/components/PriceChart.tsx lines 17-65): first matching keyword wins,
default base price 1000. -/
def basePriceOf (productName : String) : ℚ :=
  if nameHas productName "iphone" || nameHas productName "samsung" then 50000
  else if nameHas productName "macbook" || nameHas productName "laptop" then 80000
  else if nameHas productName "headphone" || nameHas productName "earbud" then 3000
  else if nameHas productName "watch" || nameHas productName "smartwatch" then 15000
  else if nameHas productName "tablet" || nameHas productName "ipad" then 25000
  else if nameHas productName "camera" then 20000
  else if nameHas productName "gaming" || nameHas productName "console" then 35000
  else if nameHas productName "tv" || nameHas productName "television" then 40000
  else if nameHas productName "book" || nameHas productName "novel" then 500
  else if nameHas productName "shirt" || nameHas productName "dress" then 1500
  else if nameHas productName "shoe" || nameHas productName "sneaker" then 2500
  else if nameHas productName "airpods" || nameHas productName "wireless" then 8000
  else if nameHas productName "monitor" || nameHas productName "display" then 12000
  else if nameHas productName "keyboard" || nameHas productName "mouse" then 2000
  else if nameHas productName "speaker" || nameHas productName "soundbar" then 5000
  else if nameHas productName "fridge" || nameHas productName "refrigerator" then 30000
  else if nameHas productName "washing" || nameHas productName "machine" then 25000
  else if nameHas productName "microwave" || nameHas productName "oven" then 8000
  else if nameHas productName "furniture" || nameHas productName "sofa" then 15000
  else if nameHas productName "toy" || nameHas productName "game" then 800
  else if nameHas productName "cosmetic" || nameHas productName "beauty" then 1200
  else if nameHas productName "food" || nameHas productName "snack" then 200
  else 1000

/-- The historical random walk of `generatePriceData`: for each month label,
perturb the running price by a ±15% draw, round, record the point, and
carry the new price forward. Returns the points and the final running price. -/
def genHistGo (rng : ℕ → ℚ) : List String → ℕ → ℚ → List PriceDataPoint × ℚ
  | [], _, cur => ([], cur)
  | m :: ms, k, cur =>
      let np : ℚ := ((jround (cur * (1 + (rng k - 1 / 2) * (3 / 10))) : ℤ) : ℚ)
      let rest := genHistGo rng ms (k + 1) np
      (⟨m, some np, none⟩ :: rest.1, rest.2)

/-- The prediction loop of `generatePriceData`: for label index `idx`
(0-based), trend `-0.02 * (idx + 1)` and a ±5% draw are applied to the fixed
final historical price `cur`, which is not advanced between steps. -/
def genPredGo (rng : ℕ → ℚ) (cur : ℚ) : List String → ℕ → List PriceDataPoint
  | [], _ => []
  | m :: ms, idx =>
      let trend : ℚ := -(2 / 100) * ((idx : ℚ) + 1)
      let pv : ℚ := ((jround (cur * (1 + trend + (rng (8 + idx) - 1 / 2) * (1 / 10))) : ℤ) : ℚ)
      ⟨m, none, some pv⟩ :: genPredGo rng cur ms (idx + 1)

/-- The label-based mock generator `generatePriceData` of PriceChart:
8 historical points (random walk from the category base price) followed by
4 prediction-only points. -/
def generatePriceData (productName : String) (rng : ℕ → ℚ) : List PriceDataPoint :=
  let res := genHistGo rng histMonths 0 (basePriceOf productName)
  res.1 ++ genPredGo rng res.2 predMonths 0

/-- Prediction process as the claim words it, for comparison with the code:
a -2% drift compounding per step plus a ±5% draw, applied to a running
price that advances each step. -/
def specPredGo (rng : ℕ → ℚ) : List String → ℕ → ℚ → List PriceDataPoint
  | [], _, _ => []
  | m :: ms, idx, cur =>
      let pv : ℚ := ((jround (cur * (1 - 2 / 100 + (rng (8 + idx) - 1 / 2) * (1 / 10))) : ℤ) : ℚ)
      ⟨m, none, some pv⟩ :: specPredGo rng ms (idx + 1) pv

/-- Generator variant whose prediction tail follows the claim's compounding
wording instead of the code's fixed-base linear drift. -/
def specGeneratePriceData (productName : String) (rng : ℕ → ℚ) : List PriceDataPoint :=
  let res := genHistGo rng histMonths 0 (basePriceOf productName)
  res.1 ++ specPredGo rng predMonths 0 res.2

/-- `history.slice(-8)`: the last (at most) 8 points. -/
def recentOf (history : List PricePoint) : List PricePoint :=
  history.drop (history.length - 8)

/-- The price column of the recent slice. -/
def pricesOf (history : List PricePoint) : List ℚ :=
  (recentOf history).map PricePoint.price

/-- Mean of the recent prices (`avg` in `projectFromHistory`). -/
def avgOf (history : List PricePoint) : ℚ :=
  (pricesOf history).sum / ((pricesOf history).length : ℚ)

/-- First differences of the recent prices (`diffs` in `projectFromHistory`). -/
def diffsOf (history : List PricePoint) : List ℚ :=
  List.zipWith (fun a b => a - b) ((pricesOf history).drop 1) (pricesOf history)

/-- Mean first difference, 0 on an empty difference list (`avgStep`). -/
def avgStepOf (history : List PricePoint) : ℚ :=
  if (diffsOf history).length = 0 then 0
  else (diffsOf history).sum / ((diffsOf history).length : ℚ)

/-- The historical portion of `projectFromHistory`: recent points relabelled
`Jan` onward, truncated at `Dec`. -/
def histPart (history : List PricePoint) : List PriceDataPoint :=
  ((recentOf history).zip months).map fun pm => ⟨pm.2, some pm.1.price, none⟩

/-- `currentLabelIndex`: index of the last month label used historically. -/
def cliOf (history : List PricePoint) : ℕ :=
  (histPart history).length - 1

/-- `prices[prices.length - 1] ?? avg`: the forecast's starting value. -/
def lastOf (history : List PricePoint) : ℚ :=
  (pricesOf history).getD ((pricesOf history).length - 1) (avgOf history)

/-- One no-target forecast step: damped average step plus jitter
proportional to the mean magnitude, clamped and rounded. -/
def driftVal (rng : ℕ → ℚ) (avgStep avg : ℚ) (i : ℕ) (current : ℚ) : ℚ :=
  max 0 ((jround (current + avgStep * (8 / 10) + (rng i - 1 / 2) * |avg| * (2 / 100)) : ℤ) : ℚ)

/-- One target-directed forecast step: move by the remaining gap divided by
`4 - i`, clamped and rounded. -/
def targetVal (t : ℚ) (i : ℕ) (current : ℚ) : ℚ :=
  max 0 ((jround (current + (t - current) / (4 - (i : ℚ))) : ℤ) : ℚ)

/-- One forecast step of `projectFromHistory`: the target branch is taken
exactly when a target is supplied and is `≥ 0`; otherwise the drift branch. -/
def stepVal (tp : Option ℚ) (rng : ℕ → ℚ) (avgStep avg : ℚ) (i : ℕ) (current : ℚ) : ℚ :=
  match tp with
  | some t =>
      if 0 ≤ t then targetVal t i current
      else driftVal rng avgStep avg i current
  | none => driftVal rng avgStep avg i current

/-- The forecast loop of `projectFromHistory`: step counter `i` starts at 1,
the fuel enforces `i ≤ 3`, and each iteration also requires
`currentLabelIndex + i < months.length`. -/
def fcGo (tp : Option ℚ) (cli : ℕ) (rng : ℕ → ℚ) (avgStep avg : ℚ) :
    ℕ → ℕ → ℚ → List PriceDataPoint
  | 0, _, _ => []
  | fuel + 1, i, current =>
      if cli + i < months.length then
        ⟨months.getD (cli + i) "", none, some (stepVal tp rng avgStep avg i current)⟩ ::
          fcGo tp cli rng avgStep avg fuel (i + 1) (stepVal tp rng avgStep avg i current)
      else []

/-- The forecast portion produced by `projectFromHistory`. -/
def projectPreds (history : List PricePoint) (tp : Option ℚ) (rng : ℕ → ℚ) :
    List PriceDataPoint :=
  fcGo tp (cliOf history) rng (avgStepOf history) (avgOf history) 3 1 (lastOf history)

/-- `projectFromHistory` of PriceChart (lines 105-151): empty history yields
an empty chart; otherwise the relabelled historical slice followed by the
forecast points. -/
def projectFromHistory (history : List PricePoint) (tp : Option ℚ) (rng : ℕ → ℚ) :
    List PriceDataPoint :=
  if history.isEmpty then [] else histPart history ++ projectPreds history tp rng

/-- One point of the day-count history of `getPriceHistory`: a day number,
a numeric price and a volume. -/
structure DayPoint where
  date : ℤ
  price : ℚ
  volume : ℤ
deriving DecidableEq

/-- Default `DayPoint`, used only as the out-of-range default of `List.getD`. -/
def dp0 : DayPoint := ⟨0, 0, 0⟩

/-- The day-count history generator `getPriceHistory` of src/lib/serp-api.ts
(lines 273-291): base price `floor(random * 50000) + 20000`, one point per
day for `i = days` down to `0`, each price `base + floor(random * 1000) - 500`.
The random stream is consumed in call order: draw 0 for the base, then two
draws per day (price, volume). The product name is never consulted. -/
def getPriceHistory (productName : String) (days : ℕ) (rng : ℕ → ℚ) (today : ℤ) :
    List DayPoint :=
  let basePrice : ℤ := ⌊rng 0 * 50000⌋ + 20000
  (List.range (days + 1)).map fun (k : ℕ) =>
    ⟨today - ((days : ℤ) - (k : ℤ)),
     (basePrice : ℚ) + ((⌊rng ((1 + 2 * k : ℕ)) * 1000⌋ : ℤ) : ℚ) - 500,
     ⌊rng ((2 + 2 * k : ℕ)) * 100⌋ + 10⟩

/-- Day-count generator as the claim words it, for comparison with the code:
identical shape, but with the base price drawn from the category keyword
table of the label-based generator. -/
def specDayHistory (productName : String) (days : ℕ) (rng : ℕ → ℚ) (today : ℤ) :
    List DayPoint :=
  (List.range (days + 1)).map fun (k : ℕ) =>
    ⟨today - ((days : ℤ) - (k : ℤ)),
     basePriceOf productName + ((⌊rng ((1 + 2 * k : ℕ)) * 1000⌋ : ℤ) : ℚ) - 500,
     ⌊rng ((2 + 2 * k : ℕ)) * 100⌋ + 10⟩

/-- Constant random stream at 1/2 (every draw is its midpoint). -/
def rhalf : ℕ → ℚ := fun _ => 1 / 2

/-- Constant random stream at 0. -/
def rzero : ℕ → ℚ := fun _ => 0

/-! ### Arithmetic facts about JavaScript rounding -/

theorem jround_intCast (z : ℤ) : jround (z : ℚ) = z := by
  unfold jround
  rw [Int.floor_int_add]
  norm_num

theorem jround_natCast (n : ℕ) : jround (n : ℚ) = (n : ℤ) := by
  have := jround_intCast (n : ℤ)
  rwa [Int.cast_natCast] at this

theorem jround_nonneg {q : ℚ} (h : 0 ≤ q) : 0 ≤ jround q := by
  unfold jround
  have : (0 : ℚ) ≤ q + 1 / 2 := by linarith
  exact_mod_cast Int.le_floor.mpr (by exact_mod_cast this)

theorem jround_add_small (n : ℕ) (r : ℚ) (h1 : -(1 / 2) ≤ r) (h2 : r < 1 / 2) :
    jround ((n : ℚ) + r) = (n : ℤ) := by
  unfold jround
  have hr : (n : ℚ) + r + 1 / 2 = ((n : ℤ) : ℚ) + (r + 1 / 2) := by push_cast; ring
  rw [hr, Int.floor_int_add]
  have : ⌊r + 1 / 2⌋ = 0 := by
    rw [Int.floor_eq_zero_iff]
    constructor
    · linarith
    · show r + 1 / 2 < 1
      linarith
  omega

theorem sub_jround_bounds (q : ℚ) :
    -(1 / 2) ≤ q - ((jround q : ℤ) : ℚ) ∧ q - ((jround q : ℤ) : ℚ) < 1 / 2 := by
  unfold jround
  have h1 : ((⌊q + 1 / 2⌋ : ℤ) : ℚ) ≤ q + 1 / 2 := Int.floor_le _
  have h2 : q + 1 / 2 < ((⌊q + 1 / 2⌋ : ℤ) : ℚ) + 1 := Int.lt_floor_add_one _
  constructor <;> linarith

/-! ### Structure of the reconciled series -/

theorem mappedSeries_length (raw : List PricePoint) :
    (mappedSeries raw).length = raw.length := by
  simp [mappedSeries]

theorem adjSeries_length (m : List PricePoint) (o : ℚ) :
    (adjSeries m o).length = m.length := by
  simp [adjSeries]

theorem reconcile_length (raw : List PricePoint) (parsed : Option ℚ) :
    (reconcile raw parsed).length = raw.length := by
  cases parsed with
  | none => simp [reconcile, mappedSeries]
  | some cp =>
      by_cases h : (mappedSeries raw).length = 0
      · have hraw : raw = [] := by
          have := mappedSeries_length raw
          exact List.length_eq_zero.mp (by omega)
        subst hraw
        simp [reconcile, mappedSeries, adjSeries]
      · simp only [reconcile, if_neg h]
        rw [List.length_set, adjSeries_length, mappedSeries_length]

theorem reconcile_some_getD (raw : List PricePoint) (cp : ℚ) (hne : raw ≠ [])
    (i : ℕ) (hi : i < raw.length) :
    (reconcile raw (some cp)).getD i pp0 =
      if i = raw.length - 1 then ⟨(raw.getD i pp0).date, cp⟩
      else
        ⟨(raw.getD i pp0).date,
          max 0 ((jround (max 0 ((jround (raw.getD i pp0).price : ℤ) : ℚ) +
            (cp - max 0 ((jround (raw.getD (raw.length - 1) pp0).price : ℤ) : ℚ))) : ℤ) : ℚ)⟩ := by
  have hlen0 : raw.length ≠ 0 := by
    intro h
    exact hne (List.length_eq_zero.mp h)
  have hml : (mappedSeries raw).length = raw.length := mappedSeries_length raw
  have hm0 : ¬ (mappedSeries raw).length = 0 := by omega
  have hlast : raw.length - 1 < raw.length := by omega
  have hmElem : ∀ (j : ℕ) (hj : j < raw.length),
      (mappedSeries raw).getD j pp0 =
        ⟨(raw.getD j pp0).date, max 0 ((jround (raw.getD j pp0).price : ℤ) : ℚ)⟩ := by
    intro j hj
    have hj' : j < (mappedSeries raw).length := by omega
    rw [List.getD_eq_getElem _ _ hj', List.getD_eq_getElem _ _ hj]
    simp [mappedSeries]
  set o : ℚ := cp - ((mappedSeries raw).getD ((mappedSeries raw).length - 1) pp0).price with ho
  have hadjLen : (adjSeries (mappedSeries raw) o).length = raw.length := by
    rw [adjSeries_length, hml]
  have hadjElem : ∀ (j : ℕ) (hj : j < raw.length),
      (adjSeries (mappedSeries raw) o).getD j pp0 =
        ⟨(raw.getD j pp0).date,
          max 0 ((jround (max 0 ((jround (raw.getD j pp0).price : ℤ) : ℚ) + o) : ℤ) : ℚ)⟩ := by
    intro j hj
    have hj1 : j < (adjSeries (mappedSeries raw) o).length := by omega
    have hj2 : j < (mappedSeries raw).length := by omega
    rw [List.getD_eq_getElem _ _ hj1]
    simp only [adjSeries, List.getElem_map]
    have := hmElem j hj
    rw [List.getD_eq_getElem _ _ hj2] at this
    rw [this]
  have hoval : o = cp - max 0 ((jround (raw.getD (raw.length - 1) pp0).price : ℤ) : ℚ) := by
    rw [ho, hml, hmElem (raw.length - 1) hlast]
  have hrec : reconcile raw (some cp) =
      (adjSeries (mappedSeries raw) o).set ((adjSeries (mappedSeries raw) o).length - 1)
        ⟨((adjSeries (mappedSeries raw) o).getD
            ((adjSeries (mappedSeries raw) o).length - 1) pp0).date, cp⟩ := by
    simp only [reconcile, if_neg hm0]
  rw [hrec, hadjLen]
  have hi' : i < ((adjSeries (mappedSeries raw) o).set (raw.length - 1)
      ⟨((adjSeries (mappedSeries raw) o).getD (raw.length - 1) pp0).date, cp⟩).length := by
    rw [List.length_set]
    omega
  rw [List.getD_eq_getElem _ _ hi', List.getElem_set]
  by_cases hcase : i = raw.length - 1
  · rw [if_pos (by omega), if_pos hcase]
    rw [hadjElem (raw.length - 1) hlast]
    subst hcase
    rfl
  · rw [if_neg (by omega), if_neg hcase]
    have hi2 : i < (adjSeries (mappedSeries raw) o).length := by omega
    rw [← List.getD_eq_getElem _ pp0 hi2, hadjElem i hi, hoval]

theorem max_zero_intCast (z : ℤ) : max 0 ((z : ℤ) : ℚ) = ((z.toNat : ℕ) : ℚ) := by
  rcases le_or_lt 0 z with h | h
  · rw [max_eq_right (by exact_mod_cast h)]
    exact_mod_cast (Int.toNat_of_nonneg h).symm
  · rw [max_eq_left (by exact_mod_cast h.le), Int.toNat_of_nonpos h.le]
    simp

theorem exists_natCast_round (x : ℚ) : ∃ k : ℕ, max 0 ((jround x : ℤ) : ℚ) = (k : ℚ) :=
  ⟨(jround x).toNat, max_zero_intCast (jround x)⟩

theorem reconcile_some_date (raw : List PricePoint) (cp : ℚ) (hne : raw ≠ [])
    (i : ℕ) (hi : i < raw.length) :
    ((reconcile raw (some cp)).getD i pp0).date = (raw.getD i pp0).date := by
  rw [reconcile_some_getD raw cp hne i hi]
  by_cases h : i = raw.length - 1 <;> simp [h]

theorem reconcile_some_last (raw : List PricePoint) (cp : ℚ) (hne : raw ≠ []) :
    ((reconcile raw (some cp)).getD (raw.length - 1) pp0).price = cp := by
  have hlen0 : raw.length ≠ 0 := fun h => hne (List.length_eq_zero.mp h)
  rw [reconcile_some_getD raw cp hne _ (by omega)]
  simp

theorem reconcile_some_mid (raw : List PricePoint) (cp : ℚ) (hne : raw ≠ [])
    (i : ℕ) (hi : i < raw.length - 1) :
    ∃ k : ℕ, ((reconcile raw (some cp)).getD i pp0).price = (k : ℚ) := by
  rw [reconcile_some_getD raw cp hne i (by omega)]
  rw [if_neg (by omega)]
  exact exists_natCast_round _

/-- C1: for every raw price series of length at least 1 and every current
price at least 0, the reconciled series keeps the length and the date order,
its last point's price is exactly the current price, and every point's price
is non-negative. -/
theorem history_reconciler_aligns (raw : List PricePoint) (cp : ℚ)
    (h1 : 1 ≤ raw.length) (h2 : 0 ≤ cp) :
    (reconcile raw (some cp)).length = raw.length ∧
    (reconcile raw (some cp)).map PricePoint.date = raw.map PricePoint.date ∧
    ((reconcile raw (some cp)).getD (raw.length - 1) pp0).price = cp ∧
    (∀ i, i < raw.length → 0 ≤ ((reconcile raw (some cp)).getD i pp0).price) := by
  have hne : raw ≠ [] := by
    intro h
    subst h
    simp at h1
  refine ⟨reconcile_length raw (some cp), ?_, reconcile_some_last raw cp hne, ?_⟩
  · apply List.ext_getElem
    · simp [reconcile_length]
    · intro n h1' h2'
      have hn : n < raw.length := by simpa using h2'
      have hn' : n < (reconcile raw (some cp)).length := by
        rw [reconcile_length]
        exact hn
      simp only [List.getElem_map]
      have hd := reconcile_some_date raw cp hne n hn
      rw [List.getD_eq_getElem _ pp0 hn', List.getD_eq_getElem _ pp0 hn] at hd
      exact hd
  · intro i hi
    by_cases h : i = raw.length - 1
    · subst h
      rw [reconcile_some_last raw cp hne]
      exact h2
    · obtain ⟨k, hk⟩ := reconcile_some_mid raw cp hne i (by omega)
      rw [hk]
      positivity

/-- Witness: the spec's worked example, series `[(d0, 1000), (d0+7, 1050)]`
with current price `1100`. -/
theorem history_reconciler_aligns_witness :
    (1 ≤ ([⟨0, 1000⟩, ⟨7, 1050⟩] : List PricePoint).length) ∧ ((0 : ℚ) ≤ 1100) ∧
    ((reconcile [⟨0, 1000⟩, ⟨7, 1050⟩] (some 1100)).length =
        ([⟨0, 1000⟩, ⟨7, 1050⟩] : List PricePoint).length ∧
      (reconcile [⟨0, 1000⟩, ⟨7, 1050⟩] (some 1100)).map PricePoint.date =
        ([⟨0, 1000⟩, ⟨7, 1050⟩] : List PricePoint).map PricePoint.date ∧
      ((reconcile [⟨0, 1000⟩, ⟨7, 1050⟩] (some 1100)).getD
          (([⟨0, 1000⟩, ⟨7, 1050⟩] : List PricePoint).length - 1) pp0).price = 1100 ∧
      (∀ i, i < ([⟨0, 1000⟩, ⟨7, 1050⟩] : List PricePoint).length →
        0 ≤ ((reconcile [⟨0, 1000⟩, ⟨7, 1050⟩] (some 1100)).getD i pp0).price)) :=
  ⟨by decide, by norm_num, history_reconciler_aligns _ _ (by decide) (by norm_num)⟩

theorem reconcile_fixed (S : List PricePoint) (cp : ℚ) (h0 : 0 ≤ cp) (hne : S ≠ [])
    (hmid : ∀ i, i < S.length - 1 → ∃ k : ℕ, (S.getD i pp0).price = (k : ℚ))
    (hlast : (S.getD (S.length - 1) pp0).price = cp) :
    reconcile S (some cp) = S := by
  apply List.ext_getElem (reconcile_length S (some cp))
  intro n h1 h2
  rw [← List.getD_eq_getElem (reconcile S (some cp)) pp0 h1, ← List.getD_eq_getElem S pp0 h2]
  rw [reconcile_some_getD S cp hne n h2]
  by_cases hc : n = S.length - 1
  · rw [if_pos hc]
    subst hc
    rw [← hlast]
  · rw [if_neg hc]
    obtain ⟨k, hk⟩ := hmid n (by omega)
    rw [hk, hlast]
    have e1 : max 0 ((jround ((k : ℕ) : ℚ) : ℤ) : ℚ) = ((k : ℕ) : ℚ) := by
      rw [jround_natCast]
      push_cast
      exact max_eq_right (by positivity)
    rw [e1]
    have hj : (0 : ℤ) ≤ jround cp := jround_nonneg h0
    have e2 : max 0 ((jround cp : ℤ) : ℚ) = ((jround cp : ℤ) : ℚ) :=
      max_eq_right (by exact_mod_cast hj)
    rw [e2]
    obtain ⟨hb1, hb2⟩ := sub_jround_bounds cp
    have e3 : jround ((k : ℚ) + (cp - ((jround cp : ℤ) : ℚ))) = (k : ℤ) :=
      jround_add_small k _ hb1 hb2
    rw [e3]
    have e4 : max 0 (((k : ℤ) : ℤ) : ℚ) = ((k : ℕ) : ℚ) := by
      push_cast
      exact max_eq_right (by positivity)
    rw [e4, ← hk]

/-- C6: reconciling an already-reconciled series a second time with the same
current price leaves it element-wise unchanged. -/
theorem history_reconciler_idempotent (raw : List PricePoint) (cp : ℚ)
    (h1 : 1 ≤ raw.length) (h2 : 0 ≤ cp) :
    reconcile (reconcile raw (some cp)) (some cp) = reconcile raw (some cp) := by
  have hne : raw ≠ [] := by
    intro h
    subst h
    simp at h1
  have hlen := reconcile_length raw (some cp)
  apply reconcile_fixed _ cp h2
  · intro h
    rw [h] at hlen
    simp at hlen
    omega
  · intro i hi
    rw [hlen] at hi
    exact reconcile_some_mid raw cp hne i hi
  · rw [hlen]
    exact reconcile_some_last raw cp hne

/-- Witness: idempotence at the series `[(0, 1000), (7, 1049)]` with the
non-integer current price `999.5`. -/
theorem history_reconciler_idempotent_witness :
    (1 ≤ ([⟨0, 1000⟩, ⟨7, 1049⟩] : List PricePoint).length) ∧ ((0 : ℚ) ≤ 1999 / 2) ∧
    reconcile (reconcile [⟨0, 1000⟩, ⟨7, 1049⟩] (some (1999 / 2))) (some (1999 / 2)) =
      reconcile [⟨0, 1000⟩, ⟨7, 1049⟩] (some (1999 / 2)) :=
  ⟨by decide, by norm_num, history_reconciler_idempotent _ _ (by decide) (by norm_num)⟩

/-! ### The price parser -/

theorem fracPart_nonneg (cs : List Char) : 0 ≤ fracPart cs := by
  unfold fracPart
  split
  · positivity
  · exact le_refl 0

theorem parseFloatQ_some_of_goodStart (cs : List Char) (h : goodStart cs = true) :
    ∃ q, parseFloatQ cs = some q ∧ 0 ≤ q := by
  rcases cs with _ | ⟨c, _ | ⟨c2, rest⟩⟩
  · simp [goodStart] at h
  · rw [goodStart] at h
    rw [parseFloatQ, if_pos h]
    exact ⟨_, rfl, add_nonneg (by positivity) (fracPart_nonneg _)⟩
  · rw [goodStart, Bool.or_eq_true, Bool.and_eq_true] at h
    rcases h with h | ⟨hdot, hc2⟩
    · rw [parseFloatQ, if_pos h]
      exact ⟨_, rfl, add_nonneg (by positivity) (fracPart_nonneg _)⟩
    · have hnd : ¬ c.isDigit = true := by
        rw [decide_eq_true_eq] at hdot
        subst hdot
        decide
      have hfs : ((c2 :: rest).takeWhile Char.isDigit).isEmpty = false := by
        rw [List.takeWhile_cons, if_pos hc2]
        rfl
      rw [decide_eq_true_eq] at hdot
      rw [parseFloatQ, if_neg hnd, if_pos hdot, if_neg (by rw [hfs]; exact Bool.false_ne_true)]
      exact ⟨_, rfl, by positivity⟩

theorem parseFloatQ_none_of_badStart (cs : List Char) (h : goodStart cs = false) :
    parseFloatQ cs = none := by
  rcases cs with _ | ⟨c, _ | ⟨c2, rest⟩⟩
  · rfl
  · rw [goodStart] at h
    rw [parseFloatQ, if_neg (by rw [h]; exact Bool.false_ne_true)]
    by_cases hdot : c = '.'
    · rw [if_pos hdot]
      rw [if_pos]
      rfl
    · rw [if_neg hdot]
  · rw [goodStart, Bool.or_eq_false_iff, Bool.and_eq_false_iff] at h
    obtain ⟨hnd, hrest⟩ := h
    rw [parseFloatQ, if_neg (by rw [hnd]; exact Bool.false_ne_true)]
    by_cases hdot : c = '.'
    · rw [if_pos hdot]
      rcases hrest with hh | hc2
      · exfalso
        rw [decide_eq_false_iff_not] at hh
        exact hh hdot
      · rw [if_pos]
        rw [List.takeWhile_cons, if_neg (by rw [hc2]; exact Bool.false_ne_true)]
        rfl
    · rw [if_neg hdot]

theorem stripToNum_all_dot (s : String) (h : ∀ c ∈ s.data, ¬ c.isDigit = true) :
    ∀ c ∈ stripToNum s, c = '.' := by
  intro c hc
  rw [stripToNum, List.mem_filter] at hc
  obtain ⟨hmem, hkeep⟩ := hc
  rw [Bool.or_eq_true, decide_eq_true_eq] at hkeep
  rcases hkeep with hd | hdot
  · exact absurd hd (h c hmem)
  · exact hdot

theorem goodStart_false_of_all_dot (cs : List Char) (h : ∀ c ∈ cs, c = '.') :
    goodStart cs = false := by
  rcases cs with _ | ⟨c, _ | ⟨c2, rest⟩⟩
  · rfl
  · rw [goodStart, h c (by simp)]
    decide
  · rw [goodStart, h c (by simp), h c2 (by simp)]
    decide

/-- C5 counterexample: the input `"..5"` contains a digit, yet the parser
returns the no-value sentinel, because `parseFloat` cannot read a number
from the residue `"..5"`. -/
theorem price_parser_digit_cex :
    ('5' ∈ "..5".data ∧ '5'.isDigit = true) ∧ parsePriceToNumber (some "..5") = none := by
  constructor
  · constructor
    · simp
    · decide
  · rfl

/-- C5 (amended): the parser returns a non-negative number exactly when the
digit/dot residue of the input starts with a digit, or with a dot followed
immediately by a digit; in every other case — including every input without
a digit, the empty string, and an absent input — it returns the no-value
sentinel, never zero. -/
theorem price_parser_spec (s : String) :
    (goodStart (stripToNum s) = true →
      ∃ q, parsePriceToNumber (some s) = some q ∧ 0 ≤ q) ∧
    (goodStart (stripToNum s) = false → parsePriceToNumber (some s) = none) ∧
    ((∀ c ∈ s.data, ¬ c.isDigit = true) → parsePriceToNumber (some s) = none) ∧
    parsePriceToNumber none = none := by
  refine ⟨?_, ?_, ?_, rfl⟩
  · intro h
    have hs : ¬ s = "" := by
      intro he
      subst he
      simp [stripToNum, goodStart] at h
    rw [parsePriceToNumber, if_neg hs]
    exact parseFloatQ_some_of_goodStart _ h
  · intro h
    by_cases hs : s = ""
    · rw [parsePriceToNumber, if_pos hs]
    · rw [parsePriceToNumber, if_neg hs]
      exact parseFloatQ_none_of_badStart _ h
  · intro h
    by_cases hs : s = ""
    · rw [parsePriceToNumber, if_pos hs]
    · rw [parsePriceToNumber, if_neg hs]
      exact parseFloatQ_none_of_badStart _
        (goodStart_false_of_all_dot _ (stripToNum_all_dot s h))

/-- Witness: the parser extracts 89999 from the currency string `"₹89,999"`. -/
theorem price_parser_spec_witness :
    goodStart (stripToNum "₹89,999") = true ∧
    (∃ q, parsePriceToNumber (some "₹89,999") = some q ∧ 0 ≤ q) :=
  ⟨by decide, (price_parser_spec "₹89,999").1 (by decide)⟩

/-! ### The fetch-failure fallback -/

theorem jsOrZero_eq_getD (v : Option ℚ) : jsOrZero v = v.getD 0 := by
  cases v with
  | none => rfl
  | some x =>
      by_cases h : x = 0
      · simp [jsOrZero, h]
      · simp [jsOrZero, h]

theorem fallbackSeries_getD (parsed : Option ℚ) (today : ℤ) (j : ℕ) (hj : j < 6) :
    (fallbackSeries parsed today).getD j pp0 =
      ⟨today - (5 - (j : ℤ)) * 7, jsOrZero parsed⟩ := by
  have hlen : (fallbackSeries parsed today).length = 6 := by simp [fallbackSeries]
  rw [List.getD_eq_getElem _ _ (by omega)]
  simp [fallbackSeries]

/-- C9: when the history fetch fails, `startTracking` absorbs the error and
installs a fallback series of exactly 6 points, each one week after the
previous, ending today, all priced at the parsed current price (or 0 when
no price is known). -/
theorem fetch_failure_fallback (priceStr : Option String) (e : Unit) (today : ℤ) :
    (startTrackingHistory priceStr (Except.error e) today).length = 6 ∧
    (∀ j, j < 6 → ((startTrackingHistory priceStr (Except.error e) today).getD j pp0).price =
      (parsePriceToNumber priceStr).getD 0) ∧
    (∀ j, j < 5 →
      ((startTrackingHistory priceStr (Except.error e) today).getD (j + 1) pp0).date -
        ((startTrackingHistory priceStr (Except.error e) today).getD j pp0).date = 7) ∧
    ((startTrackingHistory priceStr (Except.error e) today).getD 5 pp0).date = today := by
  have hst : startTrackingHistory priceStr (Except.error e) today =
      fallbackSeries (parsePriceToNumber priceStr) today := rfl
  rw [hst]
  refine ⟨by simp [fallbackSeries], ?_, ?_, ?_⟩
  · intro j hj
    rw [fallbackSeries_getD _ _ j hj, jsOrZero_eq_getD]
  · intro j hj
    rw [fallbackSeries_getD _ _ j (by omega), fallbackSeries_getD _ _ (j + 1) (by omega)]
    push_cast
    ring
  · rw [fallbackSeries_getD _ _ 5 (by omega)]
    norm_num

/-- Witness: the fallback at price string `"₹250"`, today = day 1000. -/
theorem fetch_failure_fallback_witness :
    (startTrackingHistory (some "₹250") (Except.error ()) 1000).length = 6 ∧
    ((0 : ℕ) < 6 ∧
      ((startTrackingHistory (some "₹250") (Except.error ()) 1000).getD 0 pp0).price =
        (parsePriceToNumber (some "₹250")).getD 0) ∧
    ((0 : ℕ) < 5 ∧
      ((startTrackingHistory (some "₹250") (Except.error ()) 1000).getD 1 pp0).date -
        ((startTrackingHistory (some "₹250") (Except.error ()) 1000).getD 0 pp0).date = 7) ∧
    ((startTrackingHistory (some "₹250") (Except.error ()) 1000).getD 5 pp0).date = 1000 := by
  obtain ⟨h1, h2, h3, h4⟩ := fetch_failure_fallback (some "₹250") () 1000
  exact ⟨h1, ⟨by omega, h2 0 (by omega)⟩, ⟨by omega, h3 0 (by omega)⟩, h4⟩

/-! ### The label-based mock generator -/

theorem genHistGo_length (rng : ℕ → ℚ) (ms : List String) (k : ℕ) (cur : ℚ) :
    (genHistGo rng ms k cur).1.length = ms.length := by
  induction ms generalizing k cur with
  | nil => rfl
  | cons m ms ih => simp [genHistGo, ih]

theorem genHistGo_shape (rng : ℕ → ℚ) (ms : List String) (k : ℕ) (cur : ℚ) :
    (genHistGo rng ms k cur).1.all
      (fun pt => pt.price.isSome && pt.prediction.isNone) = true := by
  induction ms generalizing k cur with
  | nil => rfl
  | cons m ms ih => simp [genHistGo, ih]

theorem genPredGo_length (rng : ℕ → ℚ) (cur : ℚ) (ms : List String) (idx : ℕ) :
    (genPredGo rng cur ms idx).length = ms.length := by
  induction ms generalizing idx with
  | nil => rfl
  | cons m ms ih => simp [genPredGo, ih]

theorem genPredGo_shape (rng : ℕ → ℚ) (cur : ℚ) (ms : List String) (idx : ℕ) :
    (genPredGo rng cur ms idx).all
      (fun pt => pt.price.isNone && pt.prediction.isSome) = true := by
  induction ms generalizing idx with
  | nil => rfl
  | cons m ms ih => simp [genPredGo, ih]

theorem generatePriceData_eq (name : String) (rng : ℕ → ℚ) :
    generatePriceData name rng =
      (genHistGo rng histMonths 0 (basePriceOf name)).1 ++
        genPredGo rng (genHistGo rng histMonths 0 (basePriceOf name)).2 predMonths 0 := rfl

/-- C8: for the product name `"iPhone 15"` the generator picks the
smartphone base price 50000 from the category table and emits exactly
12 points: 8 historical points (price populated, prediction empty) followed
by 4 prediction-only points (price empty, prediction populated). -/
theorem mock_generator_iphone (rng : ℕ → ℚ) :
    basePriceOf "iPhone 15" = 50000 ∧
    (generatePriceData "iPhone 15" rng).length = 12 ∧
    ((generatePriceData "iPhone 15" rng).take 8).all
      (fun pt => pt.price.isSome && pt.prediction.isNone) = true ∧
    ((generatePriceData "iPhone 15" rng).drop 8).all
      (fun pt => pt.price.isNone && pt.prediction.isSome) = true := by
  have hbase : basePriceOf "iPhone 15" = 50000 := by decide
  have hlen1 : (genHistGo rng histMonths 0 (basePriceOf "iPhone 15")).1.length = 8 :=
    genHistGo_length rng histMonths 0 _
  have hlen2 : (genPredGo rng (genHistGo rng histMonths 0 (basePriceOf "iPhone 15")).2
      predMonths 0).length = 4 := genPredGo_length _ _ _ _
  refine ⟨hbase, ?_, ?_, ?_⟩
  · rw [generatePriceData_eq, List.length_append, hlen1, hlen2]
  · rw [generatePriceData_eq, ← hlen1, List.take_left]
    exact genHistGo_shape _ _ _ _
  · rw [generatePriceData_eq, ← hlen1, List.drop_left]
    exact genPredGo_shape _ _ _ _

theorem genPredGo_getD (rng : ℕ → ℚ) (cur : ℚ) (ms : List String) (idx j : ℕ)
    (hj : j < ms.length) :
    (genPredGo rng cur ms idx).getD j cp0 =
      ⟨ms.getD j "", none,
        some ((jround (cur * (1 + -(2 / 100) * (((idx + j : ℕ) : ℚ) + 1) +
          (rng (8 + idx + j) - 1 / 2) * (1 / 10))) : ℤ) : ℚ)⟩ := by
  induction ms generalizing idx j with
  | nil => simp at hj
  | cons m ms ih =>
      cases j with
      | zero => simp [genPredGo]
      | succ j' =>
          have hj' : j' < ms.length := by simpa using hj
          have hstep := ih (idx + 1) j' hj'
          have e1 : idx + 1 + j' = idx + (j' + 1) := by omega
          have e2 : 8 + (idx + 1) + j' = 8 + idx + (j' + 1) := by omega
          rw [e1, e2] at hstep
          simpa [genPredGo] using hstep


theorem jround_eq (q : ℚ) (z : ℤ) (h1 : (z : ℚ) ≤ q + 1 / 2) (h2 : q + 1 / 2 < z + 1) :
    jround q = z := by
  rw [jround]
  exact Int.floor_eq_iff.mpr ⟨h1, by push_cast; exact h2⟩

theorem getD_append_right_len {α : Type} (l1 l2 : List α) (d : α) (j : ℕ)
    (hj : j < l2.length) :
    (l1 ++ l2).getD (l1.length + j) d = l2.getD j d := by
  have h2 : l1.length + j < (l1 ++ l2).length := by
    rw [List.length_append]
    omega
  rw [List.getD_eq_getElem _ _ h2, List.getD_eq_getElem _ _ hj,
      List.getElem_append_right (by omega)]
  congr 1
  omega

theorem genHistGo_rhalf_const (ms : List String) (k : ℕ) :
    genHistGo rhalf ms k 1000 = (ms.map fun m => ⟨m, some 1000, none⟩, 1000) := by
  induction ms generalizing k with
  | nil => rfl
  | cons m ms ih =>
      have harg : (1000 : ℚ) * (1 + (rhalf k - 1 / 2) * (3 / 10)) = 1000 := by
        norm_num [rhalf]
      have hr : jround ((1000 : ℚ) * (1 + (rhalf k - 1 / 2) * (3 / 10))) = 1000 := by
        rw [harg]
        exact jround_eq _ _ (by norm_num) (by norm_num)
      have hc : (((1000 : ℤ)) : ℚ) = (1000 : ℚ) := by norm_num
      simp only [genHistGo]
      rw [hr, hc, ih (k + 1)]
      rfl

theorem base_a : basePriceOf "a" = 1000 := by decide

theorem genPred_a_nov :
    (genPredGo rhalf 1000 predMonths 0).getD 2 cp0 = ⟨"Nov", none, some 940⟩ := by
  rw [genPredGo_getD rhalf 1000 predMonths 0 2 (by simp [predMonths])]
  have harg : (1000 : ℚ) * (1 + -(2 / 100) * (((0 + 2 : ℕ) : ℚ) + 1) +
      (rhalf (8 + 0 + 2) - 1 / 2) * (1 / 10)) = 940 := by
    norm_num [rhalf]
  rw [harg]
  have h940 : jround (940 : ℚ) = 940 := jround_eq _ _ (by norm_num) (by norm_num)
  rw [h940]
  simp [predMonths]

theorem specPred_a_values :
    specPredGo rhalf predMonths 0 1000 =
      [⟨"Sep", none, some 980⟩, ⟨"Oct", none, some 960⟩,
       ⟨"Nov", none, some 941⟩, ⟨"Dec", none, some 922⟩] := by
  have e0 : (1000 : ℚ) * (1 - 2 / 100 + (rhalf (8 + 0) - 1 / 2) * (1 / 10)) = 980 := by
    norm_num [rhalf]
  have h0 : jround ((1000 : ℚ) * (1 - 2 / 100 + (rhalf (8 + 0) - 1 / 2) * (1 / 10))) = 980 := by
    rw [e0]
    exact jround_eq _ _ (by norm_num) (by norm_num)
  have e1 : ((980 : ℤ) : ℚ) * (1 - 2 / 100 + (rhalf (8 + 1) - 1 / 2) * (1 / 10)) = 4802 / 5 := by
    norm_num [rhalf]
  have h1 : jround (((980 : ℤ) : ℚ) * (1 - 2 / 100 + (rhalf (8 + 1) - 1 / 2) * (1 / 10))) =
      960 := by
    rw [e1]
    exact jround_eq _ _ (by norm_num) (by norm_num)
  have e2 : ((960 : ℤ) : ℚ) * (1 - 2 / 100 + (rhalf (8 + 2) - 1 / 2) * (1 / 10)) = 4704 / 5 := by
    norm_num [rhalf]
  have h2 : jround (((960 : ℤ) : ℚ) * (1 - 2 / 100 + (rhalf (8 + 2) - 1 / 2) * (1 / 10))) =
      941 := by
    rw [e2]
    exact jround_eq _ _ (by norm_num) (by norm_num)
  have e3 : ((941 : ℤ) : ℚ) * (1 - 2 / 100 + (rhalf (8 + 3) - 1 / 2) * (1 / 10)) = 46109 / 50 := by
    norm_num [rhalf]
  have h3 : jround (((941 : ℤ) : ℚ) * (1 - 2 / 100 + (rhalf (8 + 3) - 1 / 2) * (1 / 10))) =
      922 := by
    rw [e3]
    exact jround_eq _ _ (by norm_num) (by norm_num)
  rw [predMonths]
  rw [specPredGo, h0]
  rw [specPredGo, h1]
  rw [specPredGo, h2]
  rw [specPredGo, h3]
  rfl

/-- C3 counterexample: for the product name `"a"` with every random draw at
its midpoint 1/2, the code's third prediction point (overall index 10) is
940, while the claimed process — a -2% drift compounding per step on a
running price — yields 941 there. -/
theorem prediction_points_cex :
    ((generatePriceData "a" rhalf).getD 10 cp0).prediction = some 940 ∧
    ((specGeneratePriceData "a" rhalf).getD 10 cp0).prediction = some 941 ∧
    ((generatePriceData "a" rhalf).getD 10 cp0).prediction ≠
      ((specGeneratePriceData "a" rhalf).getD 10 cp0).prediction := by
  have hhist : genHistGo rhalf histMonths 0 (basePriceOf "a") =
      (histMonths.map fun m => ⟨m, some 1000, none⟩, 1000) := by
    rw [base_a]
    exact genHistGo_rhalf_const histMonths 0
  have hlen8 : (histMonths.map fun m =>
      (⟨m, some 1000, none⟩ : PriceDataPoint)).length = 8 := by
    simp [histMonths]
  have hcode : (generatePriceData "a" rhalf).getD 10 cp0 = ⟨"Nov", none, some 940⟩ := by
    rw [generatePriceData_eq, hhist]
    have h10 : (10 : ℕ) = (histMonths.map fun m =>
        (⟨m, some 1000, none⟩ : PriceDataPoint)).length + 2 := by
      rw [hlen8]
    rw [h10, getD_append_right_len _ _ _ 2 (by simp [genPredGo_length, predMonths])]
    exact genPred_a_nov
  have hspec : (specGeneratePriceData "a" rhalf).getD 10 cp0 = ⟨"Nov", none, some 941⟩ := by
    rw [specGeneratePriceData]
    rw [hhist]
    have h10 : (10 : ℕ) = (histMonths.map fun m =>
        (⟨m, some 1000, none⟩ : PriceDataPoint)).length + 2 := by
      rw [hlen8]
    rw [h10, getD_append_right_len _ _ _ 2 (by rw [specPred_a_values]; norm_num)]
    rw [specPred_a_values]
    rfl
  rw [hcode, hspec]
  refine ⟨rfl, rfl, ?_⟩
  simp only [ne_eq, Option.some.injEq]
  norm_num

/-- C3 (amended): each of the 4 prediction-only points at labels Sep..Dec
has no historical price, and its value is the final historical price scaled
by `1 - 2% * (step number)` plus a random perturbation of at most ±5% of
that same fixed price, then rounded: a linearly growing total drift applied
to the fixed final historical price, not a compounding drift on an advancing
running price. -/
theorem prediction_points_linear_drift (name : String) (rng : ℕ → ℚ)
    (hr : ∀ k, 0 ≤ rng k ∧ rng k < 1) (j : ℕ) (hj : j < 4) :
    ((generatePriceData name rng).getD (8 + j) cp0).price = none ∧
    ∃ δ : ℚ, |δ| ≤ 1 / 20 ∧
      ((generatePriceData name rng).getD (8 + j) cp0).prediction =
        some ((jround ((genHistGo rng histMonths 0 (basePriceOf name)).2 *
          (1 - (2 / 100) * ((j : ℚ) + 1) + δ)) : ℤ) : ℚ) := by
  have hlen1 : (genHistGo rng histMonths 0 (basePriceOf name)).1.length = 8 :=
    genHistGo_length rng histMonths 0 _
  have hj2 : j < (genPredGo rng (genHistGo rng histMonths 0 (basePriceOf name)).2
      predMonths 0).length := by
    rw [genPredGo_length]
    simpa [predMonths] using hj
  have happ : (generatePriceData name rng).getD (8 + j) cp0 =
      (genPredGo rng (genHistGo rng histMonths 0 (basePriceOf name)).2
        predMonths 0).getD j cp0 := by
    rw [generatePriceData_eq]
    have h8 : (8 : ℕ) + j = (genHistGo rng histMonths 0 (basePriceOf name)).1.length + j := by
      rw [hlen1]
    rw [h8]
    exact getD_append_right_len _ _ _ j hj2
  rw [happ, genPredGo_getD rng _ predMonths 0 j (by simpa [predMonths] using hj)]
  refine ⟨rfl, (rng (8 + j) - 1 / 2) * (1 / 10), ?_, ?_⟩
  · obtain ⟨hr0, hr1⟩ := hr (8 + j)
    rw [abs_mul]
    have h2 : |rng (8 + j) - 1 / 2| ≤ 1 / 2 := abs_le.mpr ⟨by linarith, by linarith⟩
    have h3 : |(1 / 10 : ℚ)| = 1 / 10 := by norm_num
    rw [h3]
    nlinarith [abs_nonneg (rng (8 + j) - 1 / 2)]
  · have harg : (genHistGo rng histMonths 0 (basePriceOf name)).2 *
        (1 + -(2 / 100) * (((0 + j : ℕ) : ℚ) + 1) +
          (rng (8 + 0 + j) - 1 / 2) * (1 / 10)) =
      (genHistGo rng histMonths 0 (basePriceOf name)).2 *
        (1 - (2 / 100) * ((j : ℚ) + 1) + (rng (8 + j) - 1 / 2) * (1 / 10)) := by
      push_cast
      ring_nf
    rw [harg]

/-- Witness: the first prediction point for product `"a"` at midpoint draws. -/
theorem prediction_points_linear_drift_witness :
    (0 : ℕ) < 4 ∧
    (((generatePriceData "a" rhalf).getD (8 + 0) cp0).price = none ∧
      ∃ δ : ℚ, |δ| ≤ 1 / 20 ∧
        ((generatePriceData "a" rhalf).getD (8 + 0) cp0).prediction =
          some ((jround ((genHistGo rhalf histMonths 0 (basePriceOf "a")).2 *
            (1 - (2 / 100) * (((0 : ℕ) : ℚ) + 1) + δ)) : ℤ) : ℚ)) :=
  ⟨by omega,
    prediction_points_linear_drift "a" rhalf
      (fun k => by constructor <;> norm_num [rhalf]) 0 (by omega)⟩

/-! ### The day-count history generator -/

theorem getPriceHistory_length (name : String) (days : ℕ) (rng : ℕ → ℚ) (today : ℤ) :
    (getPriceHistory name days rng today).length = days + 1 := by
  simp [getPriceHistory]

theorem getPriceHistory_getD (name : String) (days : ℕ) (rng : ℕ → ℚ) (today : ℤ)
    (j : ℕ) (hj : j < days + 1) :
    (getPriceHistory name days rng today).getD j dp0 =
      ⟨today - ((days : ℤ) - (j : ℤ)),
       ((⌊rng 0 * 50000⌋ + 20000 : ℤ) : ℚ) +
         ((⌊rng ((1 + 2 * j : ℕ)) * 1000⌋ : ℤ) : ℚ) - 500,
       ⌊rng ((2 + 2 * j : ℕ)) * 100⌋ + 10⟩ := by
  have hlen : (getPriceHistory name days rng today).length = days + 1 :=
    getPriceHistory_length name days rng today
  rw [List.getD_eq_getElem _ _ (by omega)]
  simp [getPriceHistory]

/-- C4 counterexample: with every random draw at 0, `getPriceHistory` for
`"iPhone 15"` prices every point from the random base 20000 (first point
19500), not from the category-table base 50000 the claim requires (which
would give 49500 under the same draws); its output is numeric, and the
product name is never consulted. -/
theorem day_history_cex :
    basePriceOf "iPhone 15" = 50000 ∧
    ((getPriceHistory "iPhone 15" 1 rzero 0).getD 0 dp0).price = 19500 ∧
    ((specDayHistory "iPhone 15" 1 rzero 0).getD 0 dp0).price = 49500 ∧
    getPriceHistory "iPhone 15" 1 rzero 0 ≠ specDayHistory "iPhone 15" 1 rzero 0 := by
  have hbase : basePriceOf "iPhone 15" = 50000 := by decide
  have hcode : ((getPriceHistory "iPhone 15" 1 rzero 0).getD 0 dp0).price = 19500 := by
    rw [getPriceHistory_getD _ _ _ _ 0 (by omega)]
    norm_num [rzero]
  have hspec : ((specDayHistory "iPhone 15" 1 rzero 0).getD 0 dp0).price = 49500 := by
    have hlen : (specDayHistory "iPhone 15" 1 rzero 0).length = 2 := by
      simp [specDayHistory]
    rw [List.getD_eq_getElem _ _ (by omega)]
    simp [specDayHistory, hbase, rzero]
    norm_num
  refine ⟨hbase, hcode, hspec, ?_⟩
  intro he
  have : ((getPriceHistory "iPhone 15" 1 rzero 0).getD 0 dp0).price =
      ((specDayHistory "iPhone 15" 1 rzero 0).getD 0 dp0).price := by rw [he]
  rw [hcode, hspec] at this
  norm_num at this

/-- C4 (amended): for every product name, day count and random stream, the
day-count generator emits `days + 1` points, one per consecutive day ending
today; every price is a plain number equal to a single random base price in
`[20000, 70000)` plus a per-day perturbation in `[-500, 500)`; the base
price is not taken from the category keyword table — the output is
completely independent of the product name. -/
theorem day_history_spec (name : String) (days : ℕ) (rng : ℕ → ℚ) (today : ℤ)
    (hr : ∀ k, 0 ≤ rng k ∧ rng k < 1) :
    (getPriceHistory name days rng today).length = days + 1 ∧
    (∀ j, j < days + 1 →
      ((getPriceHistory name days rng today).getD j dp0).date = today - days + j) ∧
    (∃ b : ℤ, 20000 ≤ b ∧ b < 70000 ∧
      ∀ j, j < days + 1 → ∃ δ : ℤ, -500 ≤ δ ∧ δ < 500 ∧
        ((getPriceHistory name days rng today).getD j dp0).price = ((b + δ : ℤ) : ℚ)) ∧
    (∀ other : String,
      getPriceHistory other days rng today = getPriceHistory name days rng today) := by
  refine ⟨getPriceHistory_length name days rng today, ?_, ?_, fun other => rfl⟩
  · intro j hj
    rw [getPriceHistory_getD name days rng today j hj]
    push_cast
    ring
  · refine ⟨⌊rng 0 * 50000⌋ + 20000, ?_, ?_, ?_⟩
    · obtain ⟨h0, _⟩ := hr 0
      have : (0 : ℤ) ≤ ⌊rng 0 * 50000⌋ := by
        apply Int.le_floor.mpr
        push_cast
        positivity
      omega
    · obtain ⟨_, h1⟩ := hr 0
      have : ⌊rng 0 * 50000⌋ < 50000 := by
        apply Int.floor_lt.mpr
        push_cast
        nlinarith
      omega
    · intro j hj
      refine ⟨⌊rng ((1 + 2 * j : ℕ)) * 1000⌋ - 500, ?_, ?_, ?_⟩
      · obtain ⟨h0, _⟩ := hr ((1 + 2 * j : ℕ))
        have : (0 : ℤ) ≤ ⌊rng ((1 + 2 * j : ℕ)) * 1000⌋ := by
          apply Int.le_floor.mpr
          push_cast
          positivity
        omega
      · obtain ⟨_, h1⟩ := hr ((1 + 2 * j : ℕ))
        have : ⌊rng ((1 + 2 * j : ℕ)) * 1000⌋ < 1000 := by
          apply Int.floor_lt.mpr
          push_cast
          nlinarith
        omega
      · rw [getPriceHistory_getD name days rng today j hj]
        push_cast
        ring

/-- Witness: the day-count generator at name `"x"`, 2 days, midpoint draws. -/
theorem day_history_spec_witness :
    (getPriceHistory "x" 2 rhalf 100).length = 2 + 1 ∧
    (∀ j, j < 2 + 1 →
      ((getPriceHistory "x" 2 rhalf 100).getD j dp0).date = 100 - 2 + j) ∧
    (∃ b : ℤ, 20000 ≤ b ∧ b < 70000 ∧
      ∀ j, j < 2 + 1 → ∃ δ : ℤ, -500 ≤ δ ∧ δ < 500 ∧
        ((getPriceHistory "x" 2 rhalf 100).getD j dp0).price = ((b + δ : ℤ) : ℚ)) ∧
    (∀ other : String, getPriceHistory other 2 rhalf 100 = getPriceHistory "x" 2 rhalf 100) :=
  day_history_spec "x" 2 rhalf 100 (fun k => by constructor <;> norm_num [rhalf])

/-! ### The projection engine -/

theorem months_length : months.length = 12 := rfl

theorem months_getD_ne : ∀ a, a < 12 → ∀ b, b < 12 → a ≠ b →
    months.getD a "" ≠ months.getD b "" := by decide

theorem stepVal_target (t : ℚ) (ht : 0 ≤ t) (rng : ℕ → ℚ) (a b : ℚ) (i : ℕ) (cur : ℚ) :
    stepVal (some t) rng a b i cur = targetVal t i cur := by
  simp only [stepVal]
  rw [if_pos ht]

theorem stepVal_neg (t : ℚ) (ht : t < 0) (rng : ℕ → ℚ) (a b : ℚ) (i : ℕ) (cur : ℚ) :
    stepVal (some t) rng a b i cur = driftVal rng a b i cur := by
  simp only [stepVal]
  rw [if_neg (by linarith)]

theorem fcGo_zero (tp : Option ℚ) (cli : ℕ) (rng : ℕ → ℚ) (a b : ℚ) (i : ℕ) (cur : ℚ) :
    fcGo tp cli rng a b 0 i cur = [] := rfl

theorem fcGo_cons (tp : Option ℚ) (cli : ℕ) (rng : ℕ → ℚ) (a b : ℚ)
    (fuel i : ℕ) (cur : ℚ) (h : cli + i < months.length) :
    fcGo tp cli rng a b (fuel + 1) i cur =
      ⟨months.getD (cli + i) "", none, some (stepVal tp rng a b i cur)⟩ ::
        fcGo tp cli rng a b fuel (i + 1) (stepVal tp rng a b i cur) := by
  rw [fcGo, if_pos h]

theorem fcGo_length_le (tp : Option ℚ) (cli : ℕ) (rng : ℕ → ℚ) (a b : ℚ) :
    ∀ fuel i cur, (fcGo tp cli rng a b fuel i cur).length ≤ fuel := by
  intro fuel
  induction fuel with
  | zero => intro i cur; simp [fcGo_zero]
  | succ n ih =>
      intro i cur
      by_cases h : cli + i < months.length
      · rw [fcGo_cons tp cli rng a b n i cur h]
        simp only [List.length_cons]
        have := ih (i + 1) (stepVal tp rng a b i cur)
        omega
      · rw [fcGo, if_neg h]
        simp

theorem fcGo_getD (tp : Option ℚ) (cli : ℕ) (rng : ℕ → ℚ) (a b : ℚ) :
    ∀ fuel i cur j, j < (fcGo tp cli rng a b fuel i cur).length →
      (cli + i + j < 12 ∧
        ((fcGo tp cli rng a b fuel i cur).getD j cp0).date = months.getD (cli + i + j) "") := by
  intro fuel
  induction fuel with
  | zero => intro i cur j hj; simp [fcGo_zero] at hj
  | succ n ih =>
      intro i cur j hj
      by_cases h : cli + i < months.length
      · rw [fcGo_cons tp cli rng a b n i cur h] at hj ⊢
        cases j with
        | zero =>
            refine ⟨by rw [months_length] at h; omega, ?_⟩
            simp
        | succ j' =>
            have hj' : j' < (fcGo tp cli rng a b n (i + 1) (stepVal tp rng a b i cur)).length := by
              simpa using hj
            obtain ⟨hlt, hdate⟩ := ih (i + 1) (stepVal tp rng a b i cur) j' hj'
            have he : cli + (i + 1) + j' = cli + i + (j' + 1) := by omega
            rw [he] at hlt hdate
            exact ⟨hlt, by simpa using hdate⟩
      · rw [fcGo, if_neg h] at hj
        simp at hj

theorem recentOf_length_le (history : List PricePoint) : (recentOf history).length ≤ 8 := by
  simp [recentOf]
  omega

theorem recentOf_length_pos (history : List PricePoint) (h : history ≠ []) :
    1 ≤ (recentOf history).length := by
  have h1 : 1 ≤ history.length := by
    rcases history with _ | ⟨p, l⟩
    · exact absurd rfl h
    · simp
  simp [recentOf]
  omega

theorem histPart_length (history : List PricePoint) :
    (histPart history).length = (recentOf history).length := by
  have h8 := recentOf_length_le history
  simp [histPart, List.length_zip, months_length]
  omega

theorem histPart_getD_date (history : List PricePoint) (k : ℕ)
    (hk : k < (histPart history).length) :
    ((histPart history).getD k cp0).date = months.getD k "" := by
  have hk2 : k < ((recentOf history).zip months).length := by
    simpa [histPart] using hk
  have hkm : k < months.length := by
    rw [List.length_zip] at hk2
    omega
  rw [List.getD_eq_getElem _ _ hk]
  simp only [histPart, List.getElem_map, List.getElem_zip]
  rw [List.getD_eq_getElem months "" hkm]

/-- C7: the forecast produces at most 3 points; forecast labels are the
month-table entries at consecutive indices strictly after the historical
slice, all indices staying below 12; and no forecast label coincides with a
historical label. -/
theorem projection_bounds (history : List PricePoint) (tp : Option ℚ) (rng : ℕ → ℚ)
    (hne : history ≠ []) :
    (projectPreds history tp rng).length ≤ 3 ∧
    (∀ j, j < (projectPreds history tp rng).length →
      (histPart history).length + j < 12 ∧
      ((projectPreds history tp rng).getD j cp0).date =
        months.getD ((histPart history).length + j) "") ∧
    (∀ j, j < (projectPreds history tp rng).length →
      ∀ k, k < (histPart history).length →
        ((histPart history).getD k cp0).date ≠
          ((projectPreds history tp rng).getD j cp0).date) := by
  have hpos : 1 ≤ (histPart history).length := by
    rw [histPart_length]
    exact recentOf_length_pos history hne
  have hcli : cliOf history + 1 = (histPart history).length := by
    rw [cliOf]
    omega
  have hidx : ∀ j, j < (projectPreds history tp rng).length →
      ((histPart history).length + j < 12 ∧
        ((projectPreds history tp rng).getD j cp0).date =
          months.getD ((histPart history).length + j) "") := by
    intro j hj
    obtain ⟨hlt, hdate⟩ := fcGo_getD tp (cliOf history) rng (avgStepOf history)
      (avgOf history) 3 1 (lastOf history) j hj
    have he : cliOf history + 1 + j = (histPart history).length + j := by omega
    rw [he] at hlt hdate
    exact ⟨hlt, hdate⟩
  refine ⟨fcGo_length_le _ _ _ _ _ 3 1 _, hidx, ?_⟩
  intro j hj k hk
  obtain ⟨hlt, hdate⟩ := hidx j hj
  rw [hdate, histPart_getD_date history k hk]
  have h12 : (histPart history).length ≤ 12 := by
    rw [histPart_length]
    have := recentOf_length_le history
    omega
  exact months_getD_ne k (by omega) ((histPart history).length + j) (by omega) (by omega)

/-- Witness: the projection bounds at the one-point series `[(0, 100)]`. -/
theorem projection_bounds_witness :
    (([⟨0, 100⟩] : List PricePoint) ≠ []) ∧
    ((projectPreds [⟨0, 100⟩] none rhalf).length ≤ 3 ∧
      (∀ j, j < (projectPreds [⟨0, 100⟩] none rhalf).length →
        (histPart [⟨0, 100⟩]).length + j < 12 ∧
        ((projectPreds [⟨0, 100⟩] none rhalf).getD j cp0).date =
          months.getD ((histPart [⟨0, 100⟩]).length + j) "") ∧
      (∀ j, j < (projectPreds [⟨0, 100⟩] none rhalf).length →
        ∀ k, k < (histPart [⟨0, 100⟩]).length →
          ((histPart [⟨0, 100⟩]).getD k cp0).date ≠
            ((projectPreds [⟨0, 100⟩] none rhalf).getD j cp0).date)) :=
  ⟨by simp, projection_bounds [⟨0, 100⟩] none rhalf (by simp)⟩

theorem fcGo_neg_target (t : ℚ) (ht : t < 0) (cli : ℕ) (rng : ℕ → ℚ) (a b : ℚ) :
    ∀ fuel i cur, fcGo (some t) cli rng a b fuel i cur = fcGo none cli rng a b fuel i cur := by
  intro fuel
  induction fuel with
  | zero => intro i cur; rfl
  | succ n ih =>
      intro i cur
      by_cases h : cli + i < months.length
      · rw [fcGo_cons (some t) cli rng a b n i cur h, fcGo_cons none cli rng a b n i cur h]
        rw [stepVal_neg t ht]
        have hsv : stepVal none rng a b i cur = driftVal rng a b i cur := rfl
        rw [hsv, ih (i + 1) (driftVal rng a b i cur)]
      · rw [fcGo, if_neg h, fcGo, if_neg h]

/-- C10: a negative supplied target price is ignored — the forecast is the
same as with no target at all, following the damped-average-step-plus-jitter
rule, so its final point need not equal the target. -/
theorem projection_negative_target (history : List PricePoint) (t : ℚ) (rng : ℕ → ℚ)
    (ht : t < 0) :
    projectPreds history (some t) rng = projectPreds history none rng := by
  rw [projectPreds, projectPreds]
  exact fcGo_neg_target t ht (cliOf history) rng (avgStepOf history) (avgOf history)
    3 1 (lastOf history)

/-- Witness: target -1 on the series `[(0, 100)]` produces the no-target
forecast. -/
theorem projection_negative_target_witness :
    ((-1 : ℚ) < 0) ∧
    projectPreds [⟨0, 100⟩] (some (-1)) rhalf = projectPreds [⟨0, 100⟩] none rhalf :=
  ⟨by norm_num, projection_negative_target [⟨0, 100⟩] (-1) rhalf (by norm_num)⟩

theorem targetVal_eval (t cur : ℚ) (i : ℕ) (z : ℤ) (h0 : 0 ≤ z)
    (h1 : (z : ℚ) ≤ cur + (t - cur) / (4 - (i : ℚ)) + 1 / 2)
    (h2 : cur + (t - cur) / (4 - (i : ℚ)) + 1 / 2 < z + 1) :
    targetVal t i cur = (z : ℚ) := by
  rw [targetVal, jround_eq _ z h1 (by push_cast; linarith), max_eq_right (by exact_mod_cast h0)]

theorem cliOf_le_7 (history : List PricePoint) : cliOf history ≤ 7 := by
  have h1 := recentOf_length_le history
  have h2 := histPart_length history
  rw [cliOf]
  omega

/-- C2 (amended): with a supplied target `t ≥ 0` and a non-empty history,
the forecast always has exactly 3 points (the historical slice never exceeds
8 labels, so 3 slots before Dec always remain), and its final point equals
the target rounded to the nearest integer — hence equals the target exactly
whenever the target is a (non-negative) integer. -/
theorem projection_target_reaches (history : List PricePoint) (t : ℚ) (rng : ℕ → ℚ)
    (hne : history ≠ []) (ht : 0 ≤ t) :
    (projectPreds history (some t) rng).length = 3 ∧
    ((projectPreds history (some t) rng).getD 2 cp0).prediction =
      some ((jround t : ℤ) : ℚ) ∧
    (∀ z : ℤ, t = (z : ℚ) →
      ((projectPreds history (some t) rng).getD 2 cp0).prediction = some t) := by
  have hc7 : cliOf history ≤ 7 := cliOf_le_7 history
  have h1 : cliOf history + 1 < months.length := by rw [months_length]; omega
  have h2 : cliOf history + 2 < months.length := by rw [months_length]; omega
  have h3 : cliOf history + 3 < months.length := by rw [months_length]; omega
  have hform : projectPreds history (some t) rng =
      [⟨months.getD (cliOf history + 1) "", none,
        some (stepVal (some t) rng (avgStepOf history) (avgOf history) 1 (lastOf history))⟩,
       ⟨months.getD (cliOf history + 2) "", none,
        some (stepVal (some t) rng (avgStepOf history) (avgOf history) 2
          (stepVal (some t) rng (avgStepOf history) (avgOf history) 1 (lastOf history)))⟩,
       ⟨months.getD (cliOf history + 3) "", none,
        some (stepVal (some t) rng (avgStepOf history) (avgOf history) 3
          (stepVal (some t) rng (avgStepOf history) (avgOf history) 2
            (stepVal (some t) rng (avgStepOf history) (avgOf history) 1
              (lastOf history))))⟩] := by
    rw [projectPreds]
    rw [fcGo_cons _ _ _ _ _ 2 1 _ h1]
    rw [fcGo_cons _ _ _ _ _ 1 2 _ (by omega)]
    rw [fcGo_cons _ _ _ _ _ 0 3 _ (by omega)]
    rw [fcGo_zero]
  have hval : stepVal (some t) rng (avgStepOf history) (avgOf history) 3
      (stepVal (some t) rng (avgStepOf history) (avgOf history) 2
        (stepVal (some t) rng (avgStepOf history) (avgOf history) 1
          (lastOf history))) = ((jround t : ℤ) : ℚ) := by
    rw [stepVal_target t ht, targetVal]
    have harg : stepVal (some t) rng (avgStepOf history) (avgOf history) 2
        (stepVal (some t) rng (avgStepOf history) (avgOf history) 1 (lastOf history)) +
        (t - stepVal (some t) rng (avgStepOf history) (avgOf history) 2
          (stepVal (some t) rng (avgStepOf history) (avgOf history) 1 (lastOf history))) /
          (4 - ((3 : ℕ) : ℚ)) = t := by
      push_cast
      norm_num
    rw [harg, max_eq_right (by exact_mod_cast jround_nonneg ht)]
  refine ⟨by rw [hform]; rfl, by rw [hform]; simp [List.getD]; exact hval, ?_⟩
  intro z hz
  rw [hform]
  simp [List.getD]
  rw [hval, hz, jround_intCast]

/-- C2 counterexample: on the series `[(0, 100)]` with the non-integer
target 1/2, the final forecast point is 1 (= round(1/2)), not the target
1/2 itself. -/
theorem projection_target_cex :
    (([⟨0, 100⟩] : List PricePoint) ≠ []) ∧ ((0 : ℚ) ≤ 1 / 2) ∧
    projectPreds [⟨0, 100⟩] (some (1 / 2)) rhalf =
      [⟨"Feb", none, some 67⟩, ⟨"Mar", none, some 34⟩, ⟨"Apr", none, some 1⟩] ∧
    ((projectPreds [⟨0, 100⟩] (some (1 / 2)) rhalf).getD 2 cp0).prediction ≠
      some (1 / 2 : ℚ) := by
  have hcli : cliOf [(⟨0, 100⟩ : PricePoint)] = 0 := rfl
  have hlast : lastOf [(⟨0, 100⟩ : PricePoint)] = 100 := rfl
  have s1 : stepVal (some (1 / 2 : ℚ)) rhalf (avgStepOf [⟨0, 100⟩]) (avgOf [⟨0, 100⟩])
      1 100 = 67 := by
    rw [stepVal_target _ (by norm_num)]
    exact targetVal_eval _ _ _ 67 (by norm_num) (by norm_num) (by norm_num)
  have s2 : stepVal (some (1 / 2 : ℚ)) rhalf (avgStepOf [⟨0, 100⟩]) (avgOf [⟨0, 100⟩])
      2 67 = 34 := by
    rw [stepVal_target _ (by norm_num)]
    exact targetVal_eval _ _ _ 34 (by norm_num) (by norm_num) (by norm_num)
  have s3 : stepVal (some (1 / 2 : ℚ)) rhalf (avgStepOf [⟨0, 100⟩]) (avgOf [⟨0, 100⟩])
      3 34 = 1 := by
    rw [stepVal_target _ (by norm_num)]
    exact targetVal_eval _ _ _ 1 (by norm_num) (by norm_num) (by norm_num)
  have hform : projectPreds [⟨0, 100⟩] (some (1 / 2)) rhalf =
      [⟨"Feb", none, some 67⟩, ⟨"Mar", none, some 34⟩, ⟨"Apr", none, some 1⟩] := by
    rw [projectPreds, hcli, hlast]
    rw [fcGo_cons _ _ _ _ _ 2 1 _ (by rw [months_length]; omega), s1]
    rw [fcGo_cons _ _ _ _ _ 1 2 _ (by rw [months_length]; omega), s2]
    rw [fcGo_cons _ _ _ _ _ 0 3 _ (by rw [months_length]; omega), s3]
    rfl
  refine ⟨by simp, by norm_num, hform, ?_⟩
  rw [hform]
  simp [List.getD]

/-- Witness: integer target 80 on the series `[(0, 100)]` is reached exactly. -/
theorem projection_target_reaches_witness :
    (([⟨0, 100⟩] : List PricePoint) ≠ []) ∧ ((0 : ℚ) ≤ 80) ∧
    ((projectPreds [⟨0, 100⟩] (some 80) rhalf).length = 3 ∧
      ((projectPreds [⟨0, 100⟩] (some 80) rhalf).getD 2 cp0).prediction =
        some ((jround 80 : ℤ) : ℚ) ∧
      (∀ z : ℤ, (80 : ℚ) = (z : ℚ) →
        ((projectPreds [⟨0, 100⟩] (some 80) rhalf).getD 2 cp0).prediction =
          some (80 : ℚ))) :=
  ⟨by simp, by norm_num,
    projection_target_reaches [⟨0, 100⟩] 80 rhalf (by simp) (by norm_num)⟩

/-- Witness: the iPhone 15 generator shape at midpoint draws. -/
theorem mock_generator_iphone_witness :
    basePriceOf "iPhone 15" = 50000 ∧
    (generatePriceData "iPhone 15" rhalf).length = 12 ∧
    ((generatePriceData "iPhone 15" rhalf).take 8).all
      (fun pt => pt.price.isSome && pt.prediction.isNone) = true ∧
    ((generatePriceData "iPhone 15" rhalf).drop 8).all
      (fun pt => pt.price.isNone && pt.prediction.isSome) = true :=
  mock_generator_iphone rhalf
